import Mathlib

/-!
Verification of the partitioned conjugate-gradient tomography solver
(`tomocg/solver_tomo.py`).

The native USFFT Radon transform (`radonusfft.fwd` / `radonusfft.adj`) is an
opaque compiled capability; it is modelled here as a pair of abstract
functions carried by the `SolverTomo` structure.  `complex64` values are
modelled as exact rational complex numbers (`QC`); `float` scalars as `ℚ`.
Host and device arrays are modelled as total functions from three natural
indices, with the understanding that an array of shape `(a, b, c)` is
represented by the values at indices below those bounds; staging a partition
to the device (`cp.array(u[ids])`, an exact-shape copy) clamps out-of-shape
indices to `0`.

The unbounded `while` loop of `line_search` is modelled with explicit fuel:
`none` means the loop has not terminated within the given number of
halvings.
-/

/-- Rational complex numbers, modelling `complex64` values exactly. -/
structure QC where
  re : ℚ
  im : ℚ
deriving DecidableEq

namespace QC

/-- Componentwise addition. -/
def add (z w : QC) : QC := ⟨z.re + w.re, z.im + w.im⟩

/-- Componentwise negation. -/
def neg (z : QC) : QC := ⟨-z.re, -z.im⟩

/-- Componentwise subtraction. -/
def sub (z w : QC) : QC := ⟨z.re - w.re, z.im - w.im⟩

/-- Complex multiplication. -/
def mul (z w : QC) : QC := ⟨z.re * w.re - z.im * w.im, z.re * w.im + z.im * w.re⟩

instance : Zero QC := ⟨⟨0, 0⟩⟩
instance : One QC := ⟨⟨1, 0⟩⟩
instance : Add QC := ⟨add⟩
instance : Neg QC := ⟨neg⟩
instance : Sub QC := ⟨sub⟩
instance : Mul QC := ⟨mul⟩
instance : SMul ℚ QC := ⟨fun c z => ⟨c * z.re, c * z.im⟩⟩

instance : CommRing QC where
  add := (· + ·)
  add_assoc := by
    rintro ⟨ar, ai⟩ ⟨br, bi⟩ ⟨cr, ci⟩
    show QC.mk (ar + br + cr) (ai + bi + ci) = QC.mk (ar + (br + cr)) (ai + (bi + ci))
    congr 1 <;> ring
  zero := 0
  zero_add := by
    rintro ⟨ar, ai⟩
    show QC.mk (0 + ar) (0 + ai) = QC.mk ar ai
    congr 1 <;> ring
  add_zero := by
    rintro ⟨ar, ai⟩
    show QC.mk (ar + 0) (ai + 0) = QC.mk ar ai
    congr 1 <;> ring
  add_comm := by
    rintro ⟨ar, ai⟩ ⟨br, bi⟩
    show QC.mk (ar + br) (ai + bi) = QC.mk (br + ar) (bi + ai)
    congr 1 <;> ring
  nsmul := nsmulRec
  zsmul := zsmulRec
  neg := Neg.neg
  sub := Sub.sub
  sub_eq_add_neg := by
    rintro ⟨ar, ai⟩ ⟨br, bi⟩
    show QC.mk (ar - br) (ai - bi) = QC.mk (ar + -br) (ai + -bi)
    congr 1 <;> ring
  neg_add_cancel := by
    rintro ⟨ar, ai⟩
    show QC.mk (-ar + ar) (-ai + ai) = QC.mk 0 0
    congr 1 <;> ring
  mul := (· * ·)
  mul_assoc := by
    rintro ⟨ar, ai⟩ ⟨br, bi⟩ ⟨cr, ci⟩
    show QC.mk ((ar * br - ai * bi) * cr - (ar * bi + ai * br) * ci)
        ((ar * br - ai * bi) * ci + (ar * bi + ai * br) * cr) =
      QC.mk (ar * (br * cr - bi * ci) - ai * (br * ci + bi * cr))
        (ar * (br * ci + bi * cr) + ai * (br * cr - bi * ci))
    congr 1 <;> ring
  one := 1
  one_mul := by
    rintro ⟨ar, ai⟩
    show QC.mk (1 * ar - 0 * ai) (1 * ai + 0 * ar) = QC.mk ar ai
    congr 1 <;> ring
  mul_one := by
    rintro ⟨ar, ai⟩
    show QC.mk (ar * 1 - ai * 0) (ar * 0 + ai * 1) = QC.mk ar ai
    congr 1 <;> ring
  left_distrib := by
    rintro ⟨ar, ai⟩ ⟨br, bi⟩ ⟨cr, ci⟩
    show QC.mk (ar * (br + cr) - ai * (bi + ci)) (ar * (bi + ci) + ai * (br + cr)) =
      QC.mk (ar * br - ai * bi + (ar * cr - ai * ci))
        (ar * bi + ai * br + (ar * ci + ai * cr))
    congr 1 <;> ring
  right_distrib := by
    rintro ⟨ar, ai⟩ ⟨br, bi⟩ ⟨cr, ci⟩
    show QC.mk ((ar + br) * cr - (ai + bi) * ci) ((ar + br) * ci + (ai + bi) * cr) =
      QC.mk (ar * cr - ai * ci + (br * cr - bi * ci))
        (ar * ci + ai * cr + (br * ci + bi * cr))
    congr 1 <;> ring
  zero_mul := by
    rintro ⟨ar, ai⟩
    show QC.mk (0 * ar - 0 * ai) (0 * ai + 0 * ar) = QC.mk 0 0
    congr 1 <;> ring
  mul_zero := by
    rintro ⟨ar, ai⟩
    show QC.mk (ar * 0 - ai * 0) (ar * 0 + ai * 0) = QC.mk 0 0
    congr 1 <;> ring
  mul_comm := by
    rintro ⟨ar, ai⟩ ⟨br, bi⟩
    show QC.mk (ar * br - ai * bi) (ar * bi + ai * br) =
      QC.mk (br * ar - bi * ai) (br * ai + bi * ar)
    congr 1 <;> ring

instance : Module ℚ QC where
  one_smul := by
    rintro ⟨ar, ai⟩
    show QC.mk (1 * ar) (1 * ai) = QC.mk ar ai
    congr 1 <;> ring
  mul_smul := by
    rintro c d ⟨ar, ai⟩
    show QC.mk (c * d * ar) (c * d * ai) = QC.mk (c * (d * ar)) (c * (d * ai))
    congr 1 <;> ring
  smul_zero := by
    rintro c
    show QC.mk (c * 0) (c * 0) = QC.mk 0 0
    congr 1 <;> ring
  smul_add := by
    rintro c ⟨ar, ai⟩ ⟨br, bi⟩
    show QC.mk (c * (ar + br)) (c * (ai + bi)) = QC.mk (c * ar + c * br) (c * ai + c * bi)
    congr 1 <;> ring
  add_smul := by
    rintro c d ⟨ar, ai⟩
    show QC.mk ((c + d) * ar) ((c + d) * ai) = QC.mk (c * ar + d * ar) (c * ai + d * ai)
    congr 1 <;> ring
  zero_smul := by
    rintro ⟨ar, ai⟩
    show QC.mk (0 * ar) (0 * ai) = QC.mk 0 0
    congr 1 <;> ring

/-- Complex conjugate (`cp.conj`). -/
def conj (z : QC) : QC := ⟨z.re, -z.im⟩

/-- Squared magnitude; `abs(z)**2`, so that `cp.linalg.norm(x)**2` is the sum
of `normSq` over the entries of `x`. -/
def normSq (z : QC) : ℚ := z.re * z.re + z.im * z.im

/-- Embedding of a real scalar into `QC`. -/
def ofRat (c : ℚ) : QC := ⟨c, 0⟩

/-- Complex division, `z / w` (gives `0` when `w = 0`). -/
def div (z w : QC) : QC :=
  ⟨(z.re * w.re + z.im * w.im) / normSq w, (z.im * w.re - z.re * w.im) / normSq w⟩

end QC

/-- Host or device 3-d `complex64` array, as a total function on indices. -/
abbrev Arr := ℕ → ℕ → ℕ → QC

/-- The solver object: the dimension attributes of `SolverTomo` together
with the opaque native transform pair (`radonusfft.fwd` / `radonusfft.adj`),
which acts on one slice partition at a time. -/
structure SolverTomo where
  ntheta : ℕ
  nz : ℕ
  n : ℕ
  pnz : ℕ
  fwd : Arr → Arr
  adj : Arr → Arr

/-- `fwd_tomo`: Radon transform of one partition (shape
`(pnz, n, n) → (ntheta, pnz, n)`), delegated to the opaque kernel. -/
def fwd_tomo (S : SolverTomo) (u : Arr) : Arr := S.fwd u

/-- `adj_tomo`: adjoint Radon transform of one partition (shape
`(ntheta, pnz, n) → (pnz, n, n)`), delegated to the opaque kernel. -/
def adj_tomo (S : SolverTomo) (data : Arr) : Arr := S.adj data

/-- `line_search(minf, gamma, Ru, Rd)` with explicit fuel bounding the
number of halvings: `while minf(Ru) - minf(Ru + gamma*Rd) < 0: gamma *= 0.5`.
Returns `none` when the loop does not exit within `fuel` halvings. -/
def line_search : ℕ → (Arr → ℚ) → ℚ → Arr → Arr → Option ℚ
  | fuel, m, gamma, Ru, Rd =>
    if m Ru - m (Ru + gamma • Rd) < 0 then
      match fuel with
      | 0 => none
      | f + 1 => line_search f m (gamma * (1 / 2)) Ru Rd
    else some gamma

/-- `cp.linalg.norm(x)**2` for an array of shape `(a, b, c)`. -/
def normSqArr (a b c : ℕ) (x : Arr) : ℚ :=
  Finset.sum (Finset.range a) fun i =>
    Finset.sum (Finset.range b) fun j =>
      Finset.sum (Finset.range c) fun k => QC.normSq (x i j k)

/-- `cp.sum(cp.conj(x) * y)` over arrays of shape `(a, b, c)`. -/
def inner3 (a b c : ℕ) (x y : Arr) : QC :=
  Finset.sum (Finset.range a) fun i =>
    Finset.sum (Finset.range b) fun j =>
      Finset.sum (Finset.range c) fun k => QC.conj (x i j k) * y i j k

/-- The minimization functional of `cg_tomo`:
`minf(Ru) = cp.linalg.norm(Ru - xi0)**2` over the projection partition of
shape `(ntheta, pnz, n)`. -/
def minf (S : SolverTomo) (xi0 Ru : Arr) : ℚ :=
  normSqArr S.ntheta S.pnz S.n (Ru - xi0)

/-- The stabilization constant `1e-32`. -/
def eps : ℚ := 1 / 10 ^ 32

/-- The gradient proxy of `cg_tomo`:
`grad = adj_tomo(Ru - xi0) / (ntheta * n / 2)` with `Ru = fwd_tomo(u)`. -/
def grad_of (S : SolverTomo) (xi0 u : Arr) : Arr := fun a b c =>
  QC.div (adj_tomo S (fwd_tomo S u - xi0) a b c)
    (QC.ofRat ((S.ntheta * S.n : ℚ) / 2))

/-- The loop state of `cg_tomo`: the iterate `u`, the search direction `d`
and the previous gradient `grad0`. -/
structure CGst where
  u : Arr
  d : Arr
  grad0 : Arr

/-- One iteration of the `for i in range(titer)` loop of `cg_tomo`. -/
def cg_iter (S : SolverTomo) (xi0 : Arr) (fuel i : ℕ) (s : CGst) : Option CGst :=
  let Ru := fwd_tomo S s.u
  let grad := grad_of S xi0 s.u
  let d :=
    if i = 0 then -grad
    else
      -grad +
        (QC.div (QC.ofRat (normSqArr S.pnz S.n S.n grad))
            (inner3 S.pnz S.n S.n s.d (grad - s.grad0) + QC.ofRat eps)) • s.d
  let Rd := fwd_tomo S d
  match line_search fuel (minf S xi0) 1 Ru Rd with
  | none => none
  | some g => some ⟨s.u + ((1 / 2 : ℚ) * g) • d, d, grad⟩

/-- The `cg_tomo` loop run for `titer` iterations from state `s`. -/
def cg_run (S : SolverTomo) (xi0 : Arr) (fuel titer : ℕ) (s : CGst) : Option CGst :=
  List.foldlM (fun t i => cg_iter S xi0 fuel i t) s (List.range titer)

/-- `cg_tomo(xi0, u, titer)`: CG solver for `||Ru - xi0||_2` on one slice
partition.  `none` when some line search fails to terminate within `fuel`. -/
def cg_tomo (S : SolverTomo) (xi0 u : Arr) (titer fuel : ℕ) : Option Arr :=
  Option.map CGst.u (cg_run S xi0 fuel titer ⟨u, 0, 0⟩)

/-- `cp.array(u[ids])` for `ids = range(k*pnz, (k+1)*pnz)`: the exact-shape
`(pnz, n, n)` device copy of depth partition `k` of a volume. -/
def part_vol (S : SolverTomo) (k : ℕ) (u : Arr) : Arr := fun p x y =>
  if p < S.pnz ∧ x < S.n ∧ y < S.n then u (k * S.pnz + p) x y else 0

/-- `cp.array(data[:, ids])`: the exact-shape `(ntheta, pnz, n)` device copy
of depth partition `k` of a projection array. -/
def part_proj (S : SolverTomo) (k : ℕ) (data : Arr) : Arr := fun t p x =>
  if t < S.ntheta ∧ p < S.pnz ∧ x < S.n then data t (k * S.pnz + p) x else 0

/-- `res[:, ids] = v`: write partition `k` of a `(ntheta, nz, n)` projection
array. -/
def write_proj (S : SolverTomo) (k : ℕ) (v res : Arr) : Arr := fun t z x =>
  if t < S.ntheta ∧ k * S.pnz ≤ z ∧ z < (k + 1) * S.pnz ∧ x < S.n then
    v t (z - k * S.pnz) x
  else res t z x

/-- `res[ids] = v`: write depth partition `k` of a `(nz, n, n)` volume. -/
def write_vol (S : SolverTomo) (k : ℕ) (v res : Arr) : Arr := fun z x y =>
  if k * S.pnz ≤ z ∧ z < (k + 1) * S.pnz ∧ x < S.n ∧ y < S.n then
    v (z - k * S.pnz) x y
  else res z x y

/-- `fwd_tomo_batch(u)`: apply `fwd_tomo` partition by partition into a
zero-initialized `(ntheta, nz, n)` host array. -/
def fwd_tomo_batch (S : SolverTomo) (u : Arr) : Arr :=
  List.foldl (fun res k => write_proj S k (fwd_tomo S (part_vol S k u)) res) 0
    (List.range (S.nz / S.pnz))

/-- `adj_tomo_batch(data)`: apply `adj_tomo` partition by partition into a
zero-initialized `(nz, n, n)` host array. -/
def adj_tomo_batch (S : SolverTomo) (data : Arr) : Arr :=
  List.foldl (fun res k => write_vol S k (adj_tomo S (part_proj S k data)) res) 0
    (List.range (S.nz / S.pnz))

/-- One iteration of the partition loop of `cg_tomo_batch`. -/
def cg_batch_step (S : SolverTomo) (xi0 : Arr) (titer fuel : ℕ) (u : Arr) (k : ℕ) :
    Option Arr :=
  Option.map (fun w => write_vol S k w u)
    (cg_tomo S (part_proj S k xi0) (part_vol S k u) titer fuel)

/-- `cg_tomo_batch(xi0, init, titer)`: run the single-partition CG solver on
each depth partition of a copy of `init`, writing results back in place. -/
def cg_tomo_batch (S : SolverTomo) (xi0 init : Arr) (titer fuel : ℕ) : Option Arr :=
  List.foldlM (cg_batch_step S xi0 titer fuel) init (List.range (S.nz / S.pnz))

/-- Store-level model of `cg_tomo_batch`, used for the frame property: a
store maps array identifiers to volume buffers; `init.copy()` allocates the
fresh identifier `iid + 1`, and all slice assignments of the partition loop
target that identifier only. -/
def cg_tomo_batch_store (S : SolverTomo) (xi0 : Arr) (titer fuel : ℕ)
    (st : ℕ → Arr) (iid : ℕ) : Option ((ℕ → Arr) × ℕ) :=
  let uid := iid + 1
  let st1 := Function.update st uid (st iid)
  Option.map (fun stf => (stf, uid))
    (List.foldlM
      (fun stc k =>
        Option.map
          (fun w => Function.update stc uid (write_vol S k w (stc uid)))
          (cg_tomo S (part_proj S k xi0) (part_vol S k (stc uid)) titer fuel))
      st1 (List.range (S.nz / S.pnz)))

/-- Modelled from the spec: the direction update claimed in the spec, with a
REAL inner product in the Polak-Ribiere denominator
(`d = -grad + (norm(grad)^2 / (real_inner_product(d, grad - grad_prev) + 1e-32)) * d`),
stated for comparison with the code's update in `cg_iter`.  `s` is the loop
state before the iteration, so `s.d` is the previous direction and `s.grad0`
the previous gradient. -/
def claimed_dir (S : SolverTomo) (xi0 : Arr) (s : CGst) : Arr :=
  -(grad_of S xi0 s.u) +
    (QC.ofRat (normSqArr S.pnz S.n S.n (grad_of S xi0 s.u) /
        ((inner3 S.pnz S.n S.n s.d (grad_of S xi0 s.u - s.grad0)).re + eps))) •
      s.d

/-- The unit complex number `3/5 + (4/5)i`, used to build a concrete opaque
adjoint for which the Polak-Ribiere denominator is non-real. -/
def cQ : QC := ⟨3 / 5, 4 / 5⟩

/-- Concrete solver instance for the direction-update counterexample:
`1×1×1` arrays with one slice partition, `fwd` the identity and `adj`
pointwise multiplication by `cQ`. -/
def Scx : SolverTomo :=
  ⟨1, 1, 1, 1, fun v => v, fun p => fun a b c => cQ * p a b c⟩

/-- Constant-one volume, initial iterate of the counterexample run. -/
def u0x : Arr := fun _ _ _ => 1

/-- Trivial concrete solver instance (identity transforms, `1×1×1` arrays),
used to witness the hypotheses of the general theorems. -/
def Sw : SolverTomo := ⟨1, 1, 1, 1, fun v => v, fun v => v⟩

/-- Concrete solver instance with two depth partitions (`nz = 2`, `pnz = 1`),
identity transforms. -/
def S2 : SolverTomo := ⟨1, 2, 1, 1, fun v => v, fun v => v⟩

/-- Concrete volume whose entries identify their depth index. -/
def u2 : Arr := fun z _ _ => ⟨(z : ℚ) + 1, 0⟩

/-- Concrete solver instance with a ragged depth (`nz = 3`, `pnz = 2`), for
the truncation claim. -/
def S10 : SolverTomo := ⟨1, 3, 1, 2, fun v => v, fun v => v⟩

/-- Constant test volume. -/
def uc1 : Arr := fun _ _ _ => 1

/-- Constant test volume with a non-real entry. -/
def uc2 : Arr := fun _ _ _ => ⟨1, 2⟩

/-- Constant test projection array with a non-real entry. -/
def pc2 : Arr := fun _ _ _ => ⟨3, 5⟩

/-- Concrete objective for the line-search witnesses. -/
def mW (x : Arr) : ℚ := QC.normSq (x 0 0 0)

/-- Concrete non-descent data for the non-termination theorem: starting
point of the search. -/
def bad_Ru : Arr := fun _ _ _ => 1

/-- Concrete non-descent data for the non-termination theorem: direction
along which the objective strictly increases for every positive step. -/
def bad_Rd : Arr := fun _ _ _ => 1

/-- Concrete store for the frame-property witness. -/
def stW : ℕ → Arr := fun _ => uc1

/-- Zero direction for the line-search witness. -/
def RdW : Arr := fun _ _ _ => 0

/-- Zero target projection data for the CG witnesses. -/
def xiW : Arr := fun _ _ _ => 0

/-- Zero initial iterate for the CG witnesses. -/
def u0W : Arr := fun _ _ _ => 0

namespace QC

theorem ext : ∀ {z w : QC}, z.re = w.re → z.im = w.im → z = w
  | ⟨_, _⟩, ⟨_, _⟩, rfl, rfl => rfl

@[simp] theorem zero_re : (0 : QC).re = 0 := rfl

@[simp] theorem zero_im : (0 : QC).im = 0 := rfl

@[simp] theorem one_re : (1 : QC).re = 1 := rfl

@[simp] theorem one_im : (1 : QC).im = 0 := rfl

@[simp] theorem add_re (z w : QC) : (z + w).re = z.re + w.re := rfl

@[simp] theorem add_im (z w : QC) : (z + w).im = z.im + w.im := rfl

@[simp] theorem neg_re (z : QC) : (-z).re = -z.re := rfl

@[simp] theorem neg_im (z : QC) : (-z).im = -z.im := rfl

@[simp] theorem sub_re (z w : QC) : (z - w).re = z.re - w.re := rfl

@[simp] theorem sub_im (z w : QC) : (z - w).im = z.im - w.im := rfl

@[simp] theorem mul_re (z w : QC) : (z * w).re = z.re * w.re - z.im * w.im := rfl

@[simp] theorem mul_im (z w : QC) : (z * w).im = z.re * w.im + z.im * w.re := rfl

@[simp] theorem smul_re (c : ℚ) (z : QC) : (c • z).re = c * z.re := rfl

@[simp] theorem smul_im (c : ℚ) (z : QC) : (c • z).im = c * z.im := rfl

@[simp] theorem conj_re (z : QC) : (conj z).re = z.re := rfl

@[simp] theorem conj_im (z : QC) : (conj z).im = -z.im := rfl

@[simp] theorem ofRat_re (c : ℚ) : (ofRat c).re = c := rfl

@[simp] theorem ofRat_im (c : ℚ) : (ofRat c).im = 0 := rfl

@[simp] theorem mk_zero : QC.mk 0 0 = 0 := rfl

theorem normSq_nonneg (z : QC) : 0 ≤ normSq z := by
  have h1 : 0 ≤ z.re * z.re := mul_self_nonneg _
  have h2 : 0 ≤ z.im * z.im := mul_self_nonneg _
  have := add_nonneg h1 h2
  simpa [normSq] using this

/-- Midpoint bound for the squared magnitude: stepping half as far from `x`
along `rd` gives at most the average of the endpoint values. -/
theorem normSq_half_step (x rd : QC) (g : ℚ) :
    normSq (x + ((1 / 2) * g) • rd) ≤ (normSq (x + g • rd) + normSq x) / 2 := by
  simp only [normSq, add_re, add_im, smul_re, smul_im]
  nlinarith [sq_nonneg (g * rd.re), sq_nonneg (g * rd.im)]

end QC

theorem cg_run_zero (S : SolverTomo) (xi0 : Arr) (fuel : ℕ) (s : CGst) :
    cg_run S xi0 fuel 0 s = some s := rfl

theorem cg_run_succ (S : SolverTomo) (xi0 : Arr) (fuel i : ℕ) (s : CGst) :
    cg_run S xi0 fuel (i + 1) s =
      (cg_run S xi0 fuel i s).bind (cg_iter S xi0 fuel i) := by
  unfold cg_run
  rw [List.range_succ, List.foldlM_append]
  rcases h : List.foldlM (fun t j => cg_iter S xi0 fuel j t) s (List.range i) with _ | t
  · rfl
  · simp [List.foldlM]

theorem line_search_some_nonneg (fuel : ℕ) (m : Arr → ℚ) (g0 : ℚ) (Ru Rd : Arr)
    (g : ℚ) (h : line_search fuel m g0 Ru Rd = some g) :
    0 ≤ m Ru - m (Ru + g • Rd) := by
  induction fuel generalizing g0 with
  | zero =>
    rw [line_search] at h
    by_cases hc : m Ru - m (Ru + g0 • Rd) < 0
    · rw [if_pos hc] at h
      exact absurd h (by simp)
    · rw [if_neg hc] at h
      obtain rfl : g0 = g := Option.some.inj h
      linarith [not_lt.mp hc]
  | succ f ih =>
    rw [line_search] at h
    by_cases hc : m Ru - m (Ru + g0 • Rd) < 0
    · rw [if_pos hc] at h
      exact ih (g0 * (1 / 2)) h
    · rw [if_neg hc] at h
      obtain rfl : g0 = g := Option.some.inj h
      linarith [not_lt.mp hc]

theorem line_search_of_not_lt (fuel : ℕ) (m : Arr → ℚ) (g0 : ℚ) (Ru Rd : Arr)
    (h : ¬(m Ru - m (Ru + g0 • Rd) < 0)) : line_search fuel m g0 Ru Rd = some g0 := by
  rw [line_search.eq_def]
  show (if m Ru - m (Ru + g0 • Rd) < 0 then
      match fuel with
      | 0 => none
      | f + 1 => line_search f m (g0 * (1 / 2)) Ru Rd
    else some g0) = some g0
  rw [if_neg h]

theorem line_search_step (f : ℕ) (m : Arr → ℚ) (g0 : ℚ) (Ru Rd : Arr)
    (h : m Ru - m (Ru + g0 • Rd) < 0) :
    line_search (f + 1) m g0 Ru Rd = line_search f m (g0 * (1 / 2)) Ru Rd := by
  rw [line_search, if_pos h]

/-- C4: whenever `line_search(minf, gamma0, Ru, Rd)` terminates (within any
fuel), it returns the largest step of the halving sequence
`gamma0 * 2^(-k)` that does not increase the objective: the returned `g`
satisfies `minf(Ru) - minf(Ru + g*Rd) >= 0`, every strictly larger step of
the sequence fails that condition, and `g` never exceeds `gamma0`. -/
theorem c4_line_search_largest (fuel : ℕ) (m : Arr → ℚ) (g0 : ℚ) (Ru Rd : Arr)
    (g : ℚ) (hg0 : 0 ≤ g0) (h : line_search fuel m g0 Ru Rd = some g) :
    ∃ k : ℕ, g = g0 * (1 / 2 : ℚ) ^ k ∧
      0 ≤ m Ru - m (Ru + g • Rd) ∧
      (∀ j < k, m Ru - m (Ru + (g0 * (1 / 2 : ℚ) ^ j) • Rd) < 0) ∧
      g ≤ g0 := by
  induction fuel generalizing g0 with
  | zero =>
    rw [line_search] at h
    by_cases hc : m Ru - m (Ru + g0 • Rd) < 0
    · rw [if_pos hc] at h
      exact absurd h (by simp)
    · rw [if_neg hc] at h
      obtain rfl : g0 = g := Option.some.inj h
      refine ⟨0, by ring, by linarith [not_lt.mp hc], ?_, le_refl _⟩
      intro j hj
      omega
  | succ f ih =>
    rw [line_search] at h
    by_cases hc : m Ru - m (Ru + g0 • Rd) < 0
    · rw [if_pos hc] at h
      have hg0' : 0 ≤ g0 * (1 / 2) := by positivity
      obtain ⟨k, hk1, hk2, hk3, hk4⟩ := ih (g0 * (1 / 2)) hg0' h
      refine ⟨k + 1, by rw [hk1]; ring, hk2, ?_, ?_⟩
      · intro j hj
        cases j with
        | zero =>
          simpa using hc
        | succ j' =>
          have hj' : j' < k := by omega
          have := hk3 j' hj'
          have harg : g0 * (1 / 2 : ℚ) ^ (j' + 1) = g0 * (1 / 2) * (1 / 2 : ℚ) ^ j' := by
            ring
          rw [harg]
          exact this
      · have : g0 * (1 / 2) ≤ g0 := by linarith
        linarith
    · rw [if_neg hc] at h
      obtain rfl : g0 = g := Option.some.inj h
      refine ⟨0, by ring, by linarith [not_lt.mp hc], ?_, le_refl _⟩
      intro j hj
      omega

theorem c4_line_search_largest_witness :
    (0 : ℚ) ≤ 1 ∧
      ∃ k : ℕ, (1 : ℚ) = 1 * (1 / 2 : ℚ) ^ k ∧
        0 ≤ mW bad_Ru - mW (bad_Ru + (1 : ℚ) • RdW) ∧
        (∀ j < k, mW bad_Ru - mW (bad_Ru + ((1 : ℚ) * (1 / 2 : ℚ) ^ j) • RdW) < 0) ∧
        (1 : ℚ) ≤ 1 := by
  refine ⟨by norm_num, c4_line_search_largest 3 mW 1 bad_Ru RdW 1 (by norm_num) ?_⟩
  rw [line_search]
  rw [if_neg]
  simp only [mW, bad_Ru, RdW, Pi.add_apply, Pi.smul_apply, QC.normSq, QC.add_re,
    QC.add_im, QC.smul_re, QC.smul_im, QC.one_re, QC.one_im, QC.zero_re, QC.zero_im]
  norm_num

theorem bad_dir_loop (fuel : ℕ) :
    ∀ g : ℚ, 0 < g → line_search fuel mW g bad_Ru bad_Rd = none := by
  induction fuel with
  | zero =>
    intro g hg
    rw [line_search]
    rw [if_pos]
    simp only [mW, bad_Ru, bad_Rd, Pi.add_apply, Pi.smul_apply, QC.normSq,
      QC.add_re, QC.add_im, QC.smul_re, QC.smul_im, QC.one_re, QC.one_im]
    nlinarith
  | succ f ih =>
    intro g hg
    rw [line_search]
    rw [if_pos]
    · exact ih (g * (1 / 2)) (by positivity)
    · simp only [mW, bad_Ru, bad_Rd, Pi.add_apply, Pi.smul_apply, QC.normSq,
        QC.add_re, QC.add_im, QC.smul_re, QC.smul_im, QC.one_re, QC.one_im]
      nlinarith

/-- C5: the step-halving loop of `line_search` has no termination bound:
for the concrete inputs `mW`, `bad_Ru`, `bad_Rd` the direction is not a
descent direction (the objective strictly increases for every positive
step), and the loop does not terminate within any amount of fuel. -/
theorem c5_line_search_nontermination :
    (∀ g : ℚ, 0 < g → mW bad_Ru < mW (bad_Ru + g • bad_Rd)) ∧
      ∀ fuel : ℕ, line_search fuel mW 1 bad_Ru bad_Rd = none := by
  constructor
  · intro g hg
    simp only [mW, bad_Ru, bad_Rd, Pi.add_apply, Pi.smul_apply, QC.normSq,
      QC.add_re, QC.add_im, QC.smul_re, QC.smul_im, QC.one_re, QC.one_im]
    nlinarith
  · intro fuel
    exact bad_dir_loop fuel 1 one_pos

theorem c5_line_search_nontermination_witness :
    mW bad_Ru < mW (bad_Ru + (1 : ℚ) • bad_Rd) ∧
      line_search 5 mW 1 bad_Ru bad_Rd = none :=
  ⟨c5_line_search_nontermination.1 1 one_pos,
    c5_line_search_nontermination.2 5⟩

/-- C1: each iteration of `cg_tomo` applies exactly the claimed recurrence.
From the state `s` before iteration `i`: `Ru = fwd_tomo(u)`;
`grad = adj_tomo(Ru - xi0) / (ntheta * n / 2)` (the divisor a fixed constant
built from the problem dimensions only); `Rd = fwd_tomo(d)` for the new
direction `d`; `gamma = 0.5 * line_search(minf, 1, Ru, Rd)` with
`minf(x) = norm(x - xi0)^2`; the new iterate is `u + gamma * d`, and `grad`
is retained as the previous gradient for the next iteration. -/
theorem c1_cg_iteration_recurrence (S : SolverTomo) (xi0 : Arr) (fuel i : ℕ)
    (u0 : Arr) (h : (cg_run S xi0 fuel (i + 1) ⟨u0, 0, 0⟩).isSome = true) :
    ∃ s s' g, cg_run S xi0 fuel i ⟨u0, 0, 0⟩ = some s ∧
      cg_run S xi0 fuel (i + 1) ⟨u0, 0, 0⟩ = some s' ∧
      line_search fuel (minf S xi0) 1 (fwd_tomo S s.u) (fwd_tomo S s'.d) = some g ∧
      s'.u = s.u + ((1 / 2 : ℚ) * g) • s'.d ∧
      s'.grad0 = fun a b c =>
        QC.div (adj_tomo S (fwd_tomo S s.u - xi0) a b c)
          (QC.ofRat ((S.ntheta * S.n : ℚ) / 2)) := by
  rcases hrun : cg_run S xi0 fuel i ⟨u0, 0, 0⟩ with _ | s
  · rw [cg_run_succ, hrun] at h
    simp at h
  · rw [cg_run_succ, hrun] at h
    simp only [Option.some_bind] at h
    simp only [cg_iter] at h
    set dex :=
      (if i = 0 then -grad_of S xi0 s.u
       else
         -grad_of S xi0 s.u +
           (QC.div (QC.ofRat (normSqArr S.pnz S.n S.n (grad_of S xi0 s.u)))
               (inner3 S.pnz S.n S.n s.d (grad_of S xi0 s.u - s.grad0) +
                 QC.ofRat eps)) • s.d) with hd
    rcases hls : line_search fuel (minf S xi0) 1 (fwd_tomo S s.u) (fwd_tomo S dex)
      with _ | g
    · rw [hls] at h
      simp at h
    · have hsucc : cg_run S xi0 fuel (i + 1) ⟨u0, 0, 0⟩ =
          some ⟨s.u + ((1 / 2 : ℚ) * g) • dex, dex, grad_of S xi0 s.u⟩ := by
        rw [cg_run_succ, hrun]
        simp only [Option.some_bind]
        simp only [cg_iter]
        rw [← hd]
        rw [hls]
      exact ⟨s, _, g, rfl, hsucc, hls, rfl, rfl⟩

/-- C3 (amended): for iteration `i = 0` of `cg_tomo` the direction is
`d = -grad`; for `i >= 1` it is
`d = -grad + (norm(grad)^2 / (sum(conj(d)*(grad - grad0)) + 1e-32)) * d`,
where the Polak-Ribiere denominator is the full complex inner product
`cp.sum(cp.conj(d) * (grad - grad0))` (a complex number in general), not its
real part, stabilized by adding `1e-32`. -/
theorem c3_amended_direction_update (S : SolverTomo) (xi0 : Arr) (fuel i : ℕ)
    (u0 : Arr) (h : (cg_run S xi0 fuel (i + 1) ⟨u0, 0, 0⟩).isSome = true) :
    ∃ s s', cg_run S xi0 fuel i ⟨u0, 0, 0⟩ = some s ∧
      cg_run S xi0 fuel (i + 1) ⟨u0, 0, 0⟩ = some s' ∧
      s'.d =
        if i = 0 then -grad_of S xi0 s.u
        else
          -grad_of S xi0 s.u +
            (QC.div (QC.ofRat (normSqArr S.pnz S.n S.n (grad_of S xi0 s.u)))
                (inner3 S.pnz S.n S.n s.d (grad_of S xi0 s.u - s.grad0) +
                  QC.ofRat eps)) • s.d := by
  rcases hrun : cg_run S xi0 fuel i ⟨u0, 0, 0⟩ with _ | s
  · rw [cg_run_succ, hrun] at h
    simp at h
  · rw [cg_run_succ, hrun] at h
    simp only [Option.some_bind] at h
    simp only [cg_iter] at h
    set dex :=
      (if i = 0 then -grad_of S xi0 s.u
       else
         -grad_of S xi0 s.u +
           (QC.div (QC.ofRat (normSqArr S.pnz S.n S.n (grad_of S xi0 s.u)))
               (inner3 S.pnz S.n S.n s.d (grad_of S xi0 s.u - s.grad0) +
                 QC.ofRat eps)) • s.d) with hd
    rcases hls : line_search fuel (minf S xi0) 1 (fwd_tomo S s.u) (fwd_tomo S dex)
      with _ | g
    · rw [hls] at h
      simp at h
    · have hsucc : cg_run S xi0 fuel (i + 1) ⟨u0, 0, 0⟩ =
          some ⟨s.u + ((1 / 2 : ℚ) * g) • dex, dex, grad_of S xi0 s.u⟩ := by
        rw [cg_run_succ, hrun]
        simp only [Option.some_bind]
        simp only [cg_iter]
        rw [← hd]
        rw [hls]
      exact ⟨s, _, rfl, hsucc, hd.symm⟩

theorem c1_cg_iteration_recurrence_witness :
    (cg_run Sw xiW 5 (0 + 1) ⟨u0W, 0, 0⟩).isSome = true ∧
      ∃ s s' g, cg_run Sw xiW 5 0 ⟨u0W, 0, 0⟩ = some s ∧
        cg_run Sw xiW 5 (0 + 1) ⟨u0W, 0, 0⟩ = some s' ∧
        line_search 5 (minf Sw xiW) 1 (fwd_tomo Sw s.u) (fwd_tomo Sw s'.d) = some g ∧
        s'.u = s.u + ((1 / 2 : ℚ) * g) • s'.d ∧
        s'.grad0 = fun a b c =>
          QC.div (adj_tomo Sw (fwd_tomo Sw s.u - xiW) a b c)
            (QC.ofRat ((Sw.ntheta * Sw.n : ℚ) / 2)) := by
  have hls : line_search 5 (minf Sw xiW) 1 (fwd_tomo Sw u0W)
      (fwd_tomo Sw (-grad_of Sw xiW u0W)) = some 1 := by
    rw [line_search, if_neg]
    norm_num [minf, normSqArr, fwd_tomo, adj_tomo, Sw, xiW, u0W, grad_of,
      QC.div, QC.normSq, QC.ofRat, Finset.sum_range_one]
  have h : (cg_run Sw xiW 5 (0 + 1) ⟨u0W, 0, 0⟩).isSome = true := by
    rw [cg_run_succ, cg_run_zero]
    simp only [Option.some_bind]
    simp only [cg_iter, eq_self_iff_true, if_true]
    rw [hls]
    rfl
  exact ⟨h, c1_cg_iteration_recurrence Sw xiW 5 0 u0W h⟩

theorem c3_amended_direction_update_witness :
    (cg_run Sw xiW 5 (1 + 1) ⟨u0W, 0, 0⟩).isSome = true ∧
      ∃ s s', cg_run Sw xiW 5 1 ⟨u0W, 0, 0⟩ = some s ∧
        cg_run Sw xiW 5 (1 + 1) ⟨u0W, 0, 0⟩ = some s' ∧
        s'.d =
          if (1 : ℕ) = 0 then -grad_of Sw xiW s.u
          else
            -grad_of Sw xiW s.u +
              (QC.div (QC.ofRat (normSqArr Sw.pnz Sw.n Sw.n (grad_of Sw xiW s.u)))
                  (inner3 Sw.pnz Sw.n Sw.n s.d (grad_of Sw xiW s.u - s.grad0) +
                    QC.ofRat eps)) • s.d := by
  have h1 : cg_run Sw xiW 5 (0 + 1) ⟨u0W, 0, 0⟩ =
      some ⟨u0W + ((1 / 2 : ℚ) * 1) • -grad_of Sw xiW u0W, -grad_of Sw xiW u0W,
        grad_of Sw xiW u0W⟩ := by
    rw [cg_run_succ, cg_run_zero]
    simp only [Option.some_bind]
    simp only [cg_iter, eq_self_iff_true, if_true]
    rw [line_search_of_not_lt]
    norm_num [minf, normSqArr, fwd_tomo, adj_tomo, Sw, xiW, u0W, grad_of,
      QC.div, QC.normSq, QC.ofRat, Finset.sum_range_one]
  have h2 : (cg_run Sw xiW 5 (1 + 1) ⟨u0W, 0, 0⟩).isSome = true := by
    rw [cg_run_succ]
    rw [show (1 : ℕ) = 0 + 1 from rfl, h1]
    simp only [Option.some_bind]
    simp only [cg_iter, if_neg (one_ne_zero)]
    rw [line_search_of_not_lt]
    · rfl
    · norm_num [minf, normSqArr, inner3, fwd_tomo, adj_tomo, Sw, xiW, u0W, grad_of,
        QC.div, QC.normSq, QC.ofRat, QC.conj, Finset.sum_range_one]
  exact ⟨h2, c3_amended_direction_update Sw xiW 5 1 u0W h2⟩

/-- C3 (counterexample): the claim that the Polak-Ribiere denominator is the
REAL inner product of `d` with `grad - grad_prev` is false on the code: for
the concrete solver `Scx` (whose opaque adjoint multiplies by the non-real
unit `cQ`), the direction actually produced at iteration `i = 1` of
`cg_tomo` differs from the direction `claimed_dir` prescribed by the claim
for the same pre-iteration state. -/
theorem c3_counterexample_real_inner :
    ¬ (Option.map (fun s => CGst.d s 0 0 0) (cg_run Scx xiW 10 2 ⟨u0x, 0, 0⟩) =
        Option.map (fun s => claimed_dir Scx xiW s 0 0 0)
          (cg_run Scx xiW 10 1 ⟨u0x, 0, 0⟩)) := by
  have hls0 : line_search 10 (minf Scx xiW) 1 (fwd_tomo Scx u0x)
      (fwd_tomo Scx (-grad_of Scx xiW u0x)) = some (1 * (1 / 2)) := by
    rw [line_search_step]
    rw [line_search_of_not_lt]
    · norm_num [minf, normSqArr, fwd_tomo, adj_tomo, Scx, xiW, u0x, cQ, grad_of,
        QC.div, QC.normSq, QC.ofRat, Finset.sum_range_one]
    · norm_num [minf, normSqArr, fwd_tomo, adj_tomo, Scx, xiW, u0x, cQ, grad_of,
        QC.div, QC.normSq, QC.ofRat, Finset.sum_range_one]
  have h1x : cg_run Scx xiW 10 (0 + 1) ⟨u0x, 0, 0⟩ =
      some ⟨u0x + ((1 / 2 : ℚ) * (1 * (1 / 2))) • -grad_of Scx xiW u0x,
        -grad_of Scx xiW u0x, grad_of Scx xiW u0x⟩ := by
    rw [cg_run_succ, cg_run_zero]
    simp only [Option.some_bind]
    simp only [cg_iter, eq_self_iff_true, if_true]
    rw [hls0]
  have h1c : cg_run Scx xiW 10 1 ⟨u0x, 0, 0⟩ =
      some ⟨fun _ _ _ => QC.mk (7 / 10) (-2 / 5), fun _ _ _ => QC.mk (-6 / 5) (-8 / 5),
        fun _ _ _ => QC.mk (6 / 5) (8 / 5)⟩ := by
    rw [show (1 : ℕ) = 0 + 1 from rfl, h1x]
    congr 1
    congr 1
    · funext a b c
      refine QC.ext ?_ ?_ <;>
        norm_num [u0x, grad_of, fwd_tomo, adj_tomo, Scx, xiW, cQ, QC.div, QC.normSq,
          QC.ofRat]
    · funext a b c
      refine QC.ext ?_ ?_ <;>
        norm_num [u0x, grad_of, fwd_tomo, adj_tomo, Scx, xiW, cQ, QC.div, QC.normSq,
          QC.ofRat]
    · funext a b c
      refine QC.ext ?_ ?_ <;>
        norm_num [u0x, grad_of, fwd_tomo, adj_tomo, Scx, xiW, cQ, QC.div, QC.normSq,
          QC.ofRat]
  have hls1 : line_search 10 (minf Scx xiW) 1
      (fwd_tomo Scx (fun _ _ _ => QC.mk (7 / 10) (-2 / 5)))
      (fwd_tomo Scx
        (-grad_of Scx xiW (fun _ _ _ => QC.mk (7 / 10) (-2 / 5)) +
          (QC.div
              (QC.ofRat (normSqArr Scx.pnz Scx.n Scx.n
                (grad_of Scx xiW (fun _ _ _ => QC.mk (7 / 10) (-2 / 5)))))
              (inner3 Scx.pnz Scx.n Scx.n (fun _ _ _ => QC.mk (-6 / 5) (-8 / 5))
                  (grad_of Scx xiW (fun _ _ _ => QC.mk (7 / 10) (-2 / 5)) -
                    fun _ _ _ => QC.mk (6 / 5) (8 / 5)) +
                QC.ofRat eps)) • fun _ _ _ => QC.mk (-6 / 5) (-8 / 5))) =
      some (1 * (1 / 2) * (1 / 2)) := by
    rw [line_search_step]
    rw [line_search_step]
    rw [line_search_of_not_lt]
    · norm_num [minf, normSqArr, inner3, fwd_tomo, adj_tomo, Scx, xiW, cQ, grad_of,
        QC.div, QC.normSq, QC.ofRat, QC.conj, eps, Finset.sum_range_one]
    · norm_num [minf, normSqArr, inner3, fwd_tomo, adj_tomo, Scx, xiW, cQ, grad_of,
        QC.div, QC.normSq, QC.ofRat, QC.conj, eps, Finset.sum_range_one]
    · norm_num [minf, normSqArr, inner3, fwd_tomo, adj_tomo, Scx, xiW, cQ, grad_of,
        QC.div, QC.normSq, QC.ofRat, QC.conj, eps, Finset.sum_range_one]
  have h2x : cg_run Scx xiW 10 2 ⟨u0x, 0, 0⟩ =
      some ⟨(fun _ _ _ => QC.mk (7 / 10) (-2 / 5)) +
          ((1 / 2 : ℚ) * (1 * (1 / 2) * (1 / 2))) •
            (-grad_of Scx xiW (fun _ _ _ => QC.mk (7 / 10) (-2 / 5)) +
              (QC.div
                  (QC.ofRat (normSqArr Scx.pnz Scx.n Scx.n
                    (grad_of Scx xiW (fun _ _ _ => QC.mk (7 / 10) (-2 / 5)))))
                  (inner3 Scx.pnz Scx.n Scx.n (fun _ _ _ => QC.mk (-6 / 5) (-8 / 5))
                      (grad_of Scx xiW (fun _ _ _ => QC.mk (7 / 10) (-2 / 5)) -
                        fun _ _ _ => QC.mk (6 / 5) (8 / 5)) +
                    QC.ofRat eps)) • fun _ _ _ => QC.mk (-6 / 5) (-8 / 5)),
        -grad_of Scx xiW (fun _ _ _ => QC.mk (7 / 10) (-2 / 5)) +
          (QC.div
              (QC.ofRat (normSqArr Scx.pnz Scx.n Scx.n
                (grad_of Scx xiW (fun _ _ _ => QC.mk (7 / 10) (-2 / 5)))))
              (inner3 Scx.pnz Scx.n Scx.n (fun _ _ _ => QC.mk (-6 / 5) (-8 / 5))
                  (grad_of Scx xiW (fun _ _ _ => QC.mk (7 / 10) (-2 / 5)) -
                    fun _ _ _ => QC.mk (6 / 5) (8 / 5)) +
                QC.ofRat eps)) • fun _ _ _ => QC.mk (-6 / 5) (-8 / 5),
        grad_of Scx xiW (fun _ _ _ => QC.mk (7 / 10) (-2 / 5))⟩ := by
    rw [show (2 : ℕ) = 1 + 1 from rfl, cg_run_succ, h1c]
    simp only [Option.some_bind]
    simp only [cg_iter, if_neg one_ne_zero]
    rw [hls1]
  intro hEq
  rw [h2x, h1c] at hEq
  simp only [Option.map_some'] at hEq
  have hIm := congrArg QC.im (Option.some.inj hEq)
  norm_num [claimed_dir, grad_of, fwd_tomo, adj_tomo, Scx, xiW, cQ, QC.div,
    QC.normSq, QC.ofRat, QC.conj, inner3, normSqArr, eps,
    Finset.sum_range_one] at hIm

theorem write_vol_part (S : SolverTomo) (k : ℕ) (u : Arr) :
    write_vol S k (part_vol S k u) u = u := by
  funext z x y
  unfold write_vol part_vol
  by_cases h : k * S.pnz ≤ z ∧ z < (k + 1) * S.pnz ∧ x < S.n ∧ y < S.n
  · rw [if_pos h]
    obtain ⟨h1, h2, h3, h4⟩ := h
    rw [Nat.succ_mul] at h2
    rw [if_pos ⟨by omega, h3, h4⟩]
    have : k * S.pnz + (z - k * S.pnz) = z := by omega
    rw [this]
  · rw [if_neg h]

theorem cg_tomo_zero (S : SolverTomo) (xi0 u : Arr) (fuel : ℕ) :
    cg_tomo S xi0 u 0 fuel = some u := rfl

theorem cg_batch_step_zero (S : SolverTomo) (xi0 : Arr) (fuel : ℕ) (u : Arr) (k : ℕ) :
    cg_batch_step S xi0 0 fuel u k = some u := by
  unfold cg_batch_step
  rw [cg_tomo_zero]
  simp only [Option.map_some']
  rw [write_vol_part]

/-- C6: with `titer = 0` the inner CG loop performs no iterations, so
`cg_tomo_batch(xi0, init, 0)` writes every partition back unchanged and
returns an array equal to `init`. -/
theorem c6_zero_iteration_identity (S : SolverTomo) (xi0 init : Arr) (fuel : ℕ) :
    cg_tomo_batch S xi0 init 0 fuel = some init := by
  unfold cg_tomo_batch
  have haux : ∀ l : List ℕ, List.foldlM (cg_batch_step S xi0 0 fuel) init l = some init := by
    intro l
    induction l with
    | nil => rfl
    | cons k t ih =>
      rw [List.foldlM_cons, cg_batch_step_zero]
      simpa using ih
  exact haux _

theorem write_proj_apply (S : SolverTomo) (k : ℕ) (v res : Arr) (t z x : ℕ) :
    write_proj S k v res t z x =
      if t < S.ntheta ∧ k * S.pnz ≤ z ∧ z < (k + 1) * S.pnz ∧ x < S.n then
        v t (z - k * S.pnz) x
      else res t z x := rfl

theorem write_vol_apply (S : SolverTomo) (k : ℕ) (v res : Arr) (z x y : ℕ) :
    write_vol S k v res z x y =
      if k * S.pnz ≤ z ∧ z < (k + 1) * S.pnz ∧ x < S.n ∧ y < S.n then
        v (z - k * S.pnz) x y
      else res z x y := rfl

theorem block_div_mod (w z k : ℕ) (hw : 0 < w) (h1 : k * w ≤ z)
    (h2 : z < (k + 1) * w) : z / w = k ∧ z % w = z - k * w := by
  rw [Nat.succ_mul] at h2
  have hr : z - k * w < w := by omega
  have hz : z = w * k + (z - k * w) := by
    rw [Nat.mul_comm]
    omega
  constructor
  · conv_lhs => rw [hz]
    rw [Nat.mul_add_div hw, Nat.div_eq_of_lt hr, Nat.add_zero]
  · conv_lhs => rw [hz]
    rw [Nat.mul_add_mod, Nat.mod_eq_of_lt hr]

theorem fwd_batch_char (S : SolverTomo) (u : Arr) (hp : 0 < S.pnz) (q : ℕ)
    (acc : Arr) (t z x : ℕ) :
    (List.foldl (fun res k => write_proj S k (fwd_tomo S (part_vol S k u)) res) acc
        (List.range q)) t z x =
      if t < S.ntheta ∧ z < q * S.pnz ∧ x < S.n then
        fwd_tomo S (part_vol S (z / S.pnz) u) t (z % S.pnz) x
      else acc t z x := by
  induction q with
  | zero =>
    simp only [List.range_zero, List.foldl_nil]
    have hno : ¬(t < S.ntheta ∧ z < 0 * S.pnz ∧ x < S.n) := by
      rintro ⟨-, h2, -⟩
      omega
    rw [if_neg hno]
  | succ q ih =>
    rw [List.range_succ, List.foldl_append, List.foldl_cons, List.foldl_nil]
    rw [write_proj_apply]
    by_cases hw : t < S.ntheta ∧ q * S.pnz ≤ z ∧ z < (q + 1) * S.pnz ∧ x < S.n
    · rw [if_pos hw]
      obtain ⟨ht, h1, h2, hx⟩ := hw
      obtain ⟨hdiv, hmod⟩ := block_div_mod S.pnz z q hp h1 h2
      rw [if_pos ⟨ht, h2, hx⟩, hdiv, hmod]
    · rw [if_neg hw, ih]
      by_cases hin : t < S.ntheta ∧ z < q * S.pnz ∧ x < S.n
      · have hmono : q * S.pnz ≤ (q + 1) * S.pnz :=
          Nat.mul_le_mul_right _ (by omega)
        rw [if_pos hin, if_pos ⟨hin.1, lt_of_lt_of_le hin.2.1 hmono, hin.2.2⟩]
      · have hnot : ¬(t < S.ntheta ∧ z < (q + 1) * S.pnz ∧ x < S.n) := by
          rintro ⟨ht, hz, hx⟩
          rcases Nat.lt_or_ge z (q * S.pnz) with hlt | hge
          · exact hin ⟨ht, hlt, hx⟩
          · exact hw ⟨ht, hge, hz, hx⟩
        rw [if_neg hin, if_neg hnot]

theorem adj_batch_char (S : SolverTomo) (data : Arr) (hp : 0 < S.pnz) (q : ℕ)
    (acc : Arr) (z x y : ℕ) :
    (List.foldl (fun res k => write_vol S k (adj_tomo S (part_proj S k data)) res) acc
        (List.range q)) z x y =
      if z < q * S.pnz ∧ x < S.n ∧ y < S.n then
        adj_tomo S (part_proj S (z / S.pnz) data) (z % S.pnz) x y
      else acc z x y := by
  induction q with
  | zero =>
    simp only [List.range_zero, List.foldl_nil]
    have hno : ¬(z < 0 * S.pnz ∧ x < S.n ∧ y < S.n) := by
      rintro ⟨h2, -, -⟩
      omega
    rw [if_neg hno]
  | succ q ih =>
    rw [List.range_succ, List.foldl_append, List.foldl_cons, List.foldl_nil]
    rw [write_vol_apply]
    by_cases hw : q * S.pnz ≤ z ∧ z < (q + 1) * S.pnz ∧ x < S.n ∧ y < S.n
    · rw [if_pos hw]
      obtain ⟨h1, h2, hx, hy⟩ := hw
      obtain ⟨hdiv, hmod⟩ := block_div_mod S.pnz z q hp h1 h2
      rw [if_pos ⟨h2, hx, hy⟩, hdiv, hmod]
    · rw [if_neg hw, ih]
      by_cases hin : z < q * S.pnz ∧ x < S.n ∧ y < S.n
      · have hmono : q * S.pnz ≤ (q + 1) * S.pnz :=
          Nat.mul_le_mul_right _ (by omega)
        rw [if_pos hin, if_pos ⟨lt_of_lt_of_le hin.1 hmono, hin.2.1, hin.2.2⟩]
      · have hnot : ¬(z < (q + 1) * S.pnz ∧ x < S.n ∧ y < S.n) := by
          rintro ⟨hz, hx, hy⟩
          rcases Nat.lt_or_ge z (q * S.pnz) with hlt | hge
          · exact hin ⟨hlt, hx, hy⟩
          · exact hw ⟨hge, hz, hx, hy⟩
        rw [if_neg hin, if_neg hnot]

theorem fwd_batch_block (S : SolverTomo) (m : ℕ) (hm : S.nz = m * S.pnz)
    (hp : 0 < S.pnz) (u : Arr) (k t p x : ℕ) (hk : k < m) (ht : t < S.ntheta)
    (hpp : p < S.pnz) (hx : x < S.n) :
    fwd_tomo_batch S u t (k * S.pnz + p) x = fwd_tomo S (part_vol S k u) t p x := by
  unfold fwd_tomo_batch
  rw [fwd_batch_char S u hp]
  have hq : S.nz / S.pnz = m := by
    rw [hm]
    exact Nat.mul_div_cancel _ hp
  rw [hq]
  have hz : k * S.pnz + p < m * S.pnz := by
    have hstep : k * S.pnz + p < (k + 1) * S.pnz := by
      rw [Nat.succ_mul]
      omega
    have hmono : (k + 1) * S.pnz ≤ m * S.pnz := Nat.mul_le_mul_right _ (by omega)
    omega
  rw [if_pos ⟨ht, hz, hx⟩]
  obtain ⟨hdiv, hmod⟩ := block_div_mod S.pnz (k * S.pnz + p) k hp (by omega)
    (by rw [Nat.succ_mul]; omega)
  rw [hdiv, hmod]
  have : k * S.pnz + p - k * S.pnz = p := by omega
  rw [this]

/-- C2: for a volume whose depth is an exact multiple `m * pnz` of the
partition size, slice `[:, k*pnz:(k+1)*pnz]` of `fwd_tomo_batch(u)` equals
`fwd_tomo` applied to the exact-shape copy of depth partition `k` of `u`,
for every block `k < m` and every in-range index `(t, p, x)`. -/
theorem c2_fwd_batch_partition (S : SolverTomo) (m : ℕ) (hm : S.nz = m * S.pnz)
    (hp : 0 < S.pnz) (u : Arr) (k t p x : ℕ) (hk : k < m) (ht : t < S.ntheta)
    (hpp : p < S.pnz) (hx : x < S.n) :
    fwd_tomo_batch S u t (k * S.pnz + p) x = fwd_tomo S (part_vol S k u) t p x :=
  fwd_batch_block S m hm hp u k t p x hk ht hpp hx

theorem c2_fwd_batch_partition_witness :
    S2.nz = 2 * S2.pnz ∧ 0 < S2.pnz ∧
      fwd_tomo_batch S2 u2 0 (1 * S2.pnz + 0) 0 =
        fwd_tomo S2 (part_vol S2 1 u2) 0 0 0 :=
  ⟨by norm_num [S2], by norm_num [S2],
    c2_fwd_batch_partition S2 2 (by norm_num [S2]) (by norm_num [S2]) u2 1 0 0 0
      (by norm_num) (by norm_num [S2]) (by norm_num [S2]) (by norm_num [S2])⟩

theorem cg_batch_untouched (S : SolverTomo) (xi0 : Arr) (titer fuel q : ℕ) :
    ∀ acc r : Arr,
      List.foldlM (cg_batch_step S xi0 titer fuel) acc (List.range q) = some r →
        ∀ z x y, q * S.pnz ≤ z → r z x y = acc z x y := by
  induction q with
  | zero =>
    intro acc r h z x y hz
    rw [List.range_zero, List.foldlM_nil] at h
    obtain rfl : acc = r := Option.some.inj h
    rfl
  | succ q ih =>
    intro acc r h z x y hz
    rw [List.range_succ, List.foldlM_append] at h
    rcases hmid : List.foldlM (cg_batch_step S xi0 titer fuel) acc (List.range q)
      with _ | mid
    · rw [hmid] at h
      simp at h
    · rw [hmid] at h
      replace h : List.foldlM (cg_batch_step S xi0 titer fuel) mid [q] = some r := h
      rw [List.foldlM_cons] at h
      simp only [List.foldlM_nil] at h
      rcases hstep : cg_batch_step S xi0 titer fuel mid q with _ | nxt
      · rw [hstep] at h
        simp at h
      · rw [hstep] at h
        replace h : (some nxt : Option Arr) = some r := h
        obtain rfl : nxt = r := Option.some.inj h
        unfold cg_batch_step at hstep
        rcases hw : cg_tomo S (part_proj S q xi0) (part_vol S q mid) titer fuel
          with _ | w
        · rw [hw] at hstep
          simp at hstep
        · rw [hw] at hstep
          simp only [Option.map_some'] at hstep
          have hnxt : nxt = write_vol S q w mid := (Option.some.inj hstep).symm
          have hmono : q * S.pnz ≤ (q + 1) * S.pnz :=
            Nat.mul_le_mul_right _ (by omega)
          have hzq : ¬(q * S.pnz ≤ z ∧ z < (q + 1) * S.pnz ∧ x < S.n ∧ y < S.n) := by
            rintro ⟨-, h2, -, -⟩
            omega
          rw [hnxt, write_vol_apply, if_neg hzq]
          exact ih acc mid hmid z x y (le_trans hmono hz)

theorem part_vol_eq_of_agree (S : SolverTomo) (k q : ℕ) (u u' : Arr) (hk : k < q)
    (hagree : ∀ z x y, z < q * S.pnz → x < S.n → y < S.n → u z x y = u' z x y) :
    part_vol S k u = part_vol S k u' := by
  funext p x y
  unfold part_vol
  by_cases h : p < S.pnz ∧ x < S.n ∧ y < S.n
  · rw [if_pos h, if_pos h]
    refine hagree _ _ _ ?_ h.2.1 h.2.2
    have hstep : k * S.pnz + p < (k + 1) * S.pnz := by
      rw [Nat.succ_mul]
      omega
    have hmono : (k + 1) * S.pnz ≤ q * S.pnz := Nat.mul_le_mul_right _ (by omega)
    omega
  · rw [if_neg h, if_neg h]

theorem part_proj_eq_of_agree (S : SolverTomo) (k q : ℕ) (p p' : Arr) (hk : k < q)
    (hagree : ∀ t z x, t < S.ntheta → z < q * S.pnz → x < S.n → p t z x = p' t z x) :
    part_proj S k p = part_proj S k p' := by
  funext t pp x
  unfold part_proj
  by_cases h : t < S.ntheta ∧ pp < S.pnz ∧ x < S.n
  · rw [if_pos h, if_pos h]
    refine hagree _ _ _ h.1 ?_ h.2.2
    have hstep : k * S.pnz + pp < (k + 1) * S.pnz := by
      rw [Nat.succ_mul]
      omega
    have hmono : (k + 1) * S.pnz ≤ q * S.pnz := Nat.mul_le_mul_right _ (by omega)
    omega
  · rw [if_neg h, if_neg h]

/-- C10: when `nz` is not an exact multiple of `pnz` the batched operations
silently truncate to the first `(nz / pnz) * pnz` depth slices: beyond them
`fwd_tomo_batch` and `adj_tomo_batch` leave their zero-initialized outputs
exactly `0`; both depend only on the input values at the processed in-range
slices (the trailing input slices are never read); and `cg_tomo_batch`
returns the trailing slices equal to the corresponding slices of `init`,
unchanged, with no error raised. -/
theorem c10_ragged_depth_truncation (S : SolverTomo) (hp : 0 < S.pnz) :
    (∀ (u : Arr) (t z x : ℕ), S.nz / S.pnz * S.pnz ≤ z →
        fwd_tomo_batch S u t z x = 0) ∧
      (∀ (p : Arr) (z x y : ℕ), S.nz / S.pnz * S.pnz ≤ z →
        adj_tomo_batch S p z x y = 0) ∧
      (∀ u u' : Arr,
        (∀ z x y, z < S.nz / S.pnz * S.pnz → x < S.n → y < S.n →
            u z x y = u' z x y) →
          fwd_tomo_batch S u = fwd_tomo_batch S u') ∧
      (∀ p p' : Arr,
        (∀ t z x, t < S.ntheta → z < S.nz / S.pnz * S.pnz → x < S.n →
            p t z x = p' t z x) →
          adj_tomo_batch S p = adj_tomo_batch S p') ∧
      (∀ (xi0 init : Arr) (titer fuel : ℕ) (r : Arr),
        cg_tomo_batch S xi0 init titer fuel = some r →
          ∀ z x y, S.nz / S.pnz * S.pnz ≤ z → r z x y = init z x y) := by
  refine ⟨?_, ?_, ?_, ?_, ?_⟩
  · intro u t z x hz
    unfold fwd_tomo_batch
    rw [fwd_batch_char S u hp]
    rw [if_neg (by rintro ⟨-, h2, -⟩; omega)]
    rfl
  · intro p z x y hz
    unfold adj_tomo_batch
    rw [adj_batch_char S p hp]
    rw [if_neg (by rintro ⟨h2, -, -⟩; omega)]
    rfl
  · intro u u' hagree
    funext t z x
    unfold fwd_tomo_batch
    rw [fwd_batch_char S u hp, fwd_batch_char S u' hp]
    by_cases hc : t < S.ntheta ∧ z < S.nz / S.pnz * S.pnz ∧ x < S.n
    · rw [if_pos hc, if_pos hc]
      have hdlt : z / S.pnz < S.nz / S.pnz :=
        Nat.div_lt_of_lt_mul (by rw [Nat.mul_comm]; exact hc.2.1)
      rw [part_vol_eq_of_agree S (z / S.pnz) (S.nz / S.pnz) u u' hdlt hagree]
    · rw [if_neg hc, if_neg hc]
  · intro p p' hagree
    funext z x y
    unfold adj_tomo_batch
    rw [adj_batch_char S p hp, adj_batch_char S p' hp]
    by_cases hc : z < S.nz / S.pnz * S.pnz ∧ x < S.n ∧ y < S.n
    · rw [if_pos hc, if_pos hc]
      have hdlt : z / S.pnz < S.nz / S.pnz :=
        Nat.div_lt_of_lt_mul (by rw [Nat.mul_comm]; exact hc.1)
      rw [part_proj_eq_of_agree S (z / S.pnz) (S.nz / S.pnz) p p' hdlt hagree]
    · rw [if_neg hc, if_neg hc]
  · intro xi0 init titer fuel r h z x y hz
    unfold cg_tomo_batch at h
    exact cg_batch_untouched S xi0 titer fuel (S.nz / S.pnz) init r h z x y hz

theorem c10_ragged_depth_truncation_witness :
    0 < S10.pnz ∧ fwd_tomo_batch S10 uc1 0 2 0 = 0 :=
  ⟨by norm_num [S10],
    (c10_ragged_depth_truncation S10 (by norm_num [S10])).1 uc1 0 2 0
      (by norm_num [S10])⟩

theorem store_foldlM_preserves (S : SolverTomo) (xi0 : Arr) (titer fuel : ℕ)
    (uid iid : ℕ) (hne : iid ≠ uid) :
    ∀ (l : List ℕ) (stc stf : ℕ → Arr),
      List.foldlM
          (fun stc k =>
            Option.map
              (fun w => Function.update stc uid (write_vol S k w (stc uid)))
              (cg_tomo S (part_proj S k xi0) (part_vol S k (stc uid)) titer fuel))
          stc l = some stf →
        stf iid = stc iid := by
  intro l
  induction l with
  | nil =>
    intro stc stf h
    rw [List.foldlM_nil] at h
    rw [← Option.some.inj h]
  | cons k t ih =>
    intro stc stf h
    rw [List.foldlM_cons] at h
    rcases hw : cg_tomo S (part_proj S k xi0) (part_vol S k (stc uid)) titer fuel
      with _ | w
    · rw [hw] at h
      simp at h
    · rw [hw] at h
      replace h :
          List.foldlM
            (fun stc k =>
              Option.map
                (fun w => Function.update stc uid (write_vol S k w (stc uid)))
                (cg_tomo S (part_proj S k xi0) (part_vol S k (stc uid)) titer fuel))
            (Function.update stc uid (write_vol S k w (stc uid))) t = some stf := h
      rw [ih _ _ h]
      exact Function.update_noteq hne _ _

/-- C9: `cg_tomo_batch` never mutates the caller's `init` array.  In the
store-level model the call copies `init` into a fresh buffer (`iid + 1`) and
every slice assignment of the partition loop targets that buffer, so after
the call the store still holds the original value at `init`'s identifier,
and the returned identifier is a distinct buffer. -/
theorem c9_init_not_mutated (S : SolverTomo) (xi0 : Arr) (titer fuel : ℕ)
    (st : ℕ → Arr) (iid : ℕ) (stf : ℕ → Arr) (rid : ℕ)
    (h : cg_tomo_batch_store S xi0 titer fuel st iid = some (stf, rid)) :
    stf iid = st iid ∧ rid ≠ iid := by
  simp only [cg_tomo_batch_store] at h
  rcases hx :
      List.foldlM
        (fun stc k =>
          Option.map
            (fun w => Function.update stc (iid + 1) (write_vol S k w (stc (iid + 1))))
            (cg_tomo S (part_proj S k xi0) (part_vol S k (stc (iid + 1))) titer fuel))
        (Function.update st (iid + 1) (st iid)) (List.range (S.nz / S.pnz))
    with _ | stf'
  · rw [hx] at h
    simp at h
  · rw [hx] at h
    simp only [Option.map_some'] at h
    obtain ⟨h1, h2⟩ := Prod.mk.injEq .. ▸ Option.some.inj h
    have hpres := store_foldlM_preserves S xi0 titer fuel (iid + 1) iid (by omega)
      (List.range (S.nz / S.pnz)) (Function.update st (iid + 1) (st iid)) stf' hx
    constructor
    · rw [← h1, hpres]
      exact Function.update_noteq (by omega) _ _
    · omega

theorem c9_init_not_mutated_witness :
    cg_tomo_batch_store Sw xiW 0 3 stW 0 =
        some (Function.update (Function.update stW 1 (stW 0)) 1
            (write_vol Sw 0
              (part_vol Sw 0 (Function.update stW 1 (stW 0) 1))
              (Function.update stW 1 (stW 0) 1)), 1) ∧
      Function.update (Function.update stW 1 (stW 0)) 1
          (write_vol Sw 0
            (part_vol Sw 0 (Function.update stW 1 (stW 0) 1))
            (Function.update stW 1 (stW 0) 1)) 0 = stW 0 ∧
      (1 : ℕ) ≠ 0 := by
  have hEq : cg_tomo_batch_store Sw xiW 0 3 stW 0 =
      some (Function.update (Function.update stW 1 (stW 0)) 1
          (write_vol Sw 0
            (part_vol Sw 0 (Function.update stW 1 (stW 0) 1))
            (Function.update stW 1 (stW 0) 1)), 1) := rfl
  refine ⟨hEq, ?_, ?_⟩
  · exact (c9_init_not_mutated Sw xiW 0 3 stW 0 _ 1 hEq).1
  · exact (c9_init_not_mutated Sw xiW 0 3 stW 0 _ 1 hEq).2

theorem adj_batch_block (S : SolverTomo) (m : ℕ) (hm : S.nz = m * S.pnz)
    (hp : 0 < S.pnz) (pdata : Arr) (k r x y : ℕ) (hk : k < m) (hr : r < S.pnz)
    (hx : x < S.n) (hy : y < S.n) :
    adj_tomo_batch S pdata (k * S.pnz + r) x y =
      adj_tomo S (part_proj S k pdata) r x y := by
  unfold adj_tomo_batch
  rw [adj_batch_char S pdata hp]
  have hq : S.nz / S.pnz = m := by
    rw [hm]
    exact Nat.mul_div_cancel _ hp
  rw [hq]
  have hz : k * S.pnz + r < m * S.pnz := by
    have hstep : k * S.pnz + r < (k + 1) * S.pnz := by
      rw [Nat.succ_mul]
      omega
    have hmono : (k + 1) * S.pnz ≤ m * S.pnz := Nat.mul_le_mul_right _ (by omega)
    omega
  rw [if_pos ⟨hz, hx, hy⟩]
  obtain ⟨hdiv, hmod⟩ := block_div_mod S.pnz (k * S.pnz + r) k hp (by omega)
    (by rw [Nat.succ_mul]; omega)
  rw [hdiv, hmod]
  have : k * S.pnz + r - k * S.pnz = r := by omega
  rw [this]

theorem sum_block_split {M : Type} [AddCommMonoid M] (q w : ℕ) (f : ℕ → M) :
    Finset.sum (Finset.range (q * w)) f =
      Finset.sum (Finset.range q) fun k =>
        Finset.sum (Finset.range w) fun r => f (k * w + r) := by
  induction q with
  | zero => simp
  | succ q ih =>
    rw [Nat.succ_mul, Finset.sum_range_add, ih, Finset.sum_range_succ]

theorem fwd_batch_inner_decomp (S : SolverTomo) (m : ℕ) (hm : S.nz = m * S.pnz)
    (hp : 0 < S.pnz) (u p : Arr) :
    inner3 S.ntheta S.nz S.n (fwd_tomo_batch S u) p =
      Finset.sum (Finset.range m) fun k =>
        inner3 S.ntheta S.pnz S.n (fwd_tomo S (part_vol S k u)) (part_proj S k p) := by
  unfold inner3
  rw [hm]
  trans (Finset.sum (Finset.range S.ntheta) fun t =>
    Finset.sum (Finset.range m) fun k =>
      Finset.sum (Finset.range S.pnz) fun r =>
        Finset.sum (Finset.range S.n) fun x =>
          QC.conj (fwd_tomo_batch S u t (k * S.pnz + r) x) * p t (k * S.pnz + r) x)
  · refine Finset.sum_congr rfl ?_
    intro t ht
    exact sum_block_split m S.pnz _
  rw [Finset.sum_comm]
  refine Finset.sum_congr rfl ?_
  intro k hk
  refine Finset.sum_congr rfl ?_
  intro t ht
  refine Finset.sum_congr rfl ?_
  intro r hr
  refine Finset.sum_congr rfl ?_
  intro x hx
  simp only [Finset.mem_range] at hk ht hr hx
  rw [fwd_batch_block S m hm hp u k t r x hk ht hr hx]
  congr 1
  unfold part_proj
  rw [if_pos ⟨ht, hr, hx⟩]

theorem adj_batch_inner_decomp (S : SolverTomo) (m : ℕ) (hm : S.nz = m * S.pnz)
    (hp : 0 < S.pnz) (u p : Arr) :
    inner3 S.nz S.n S.n u (adj_tomo_batch S p) =
      Finset.sum (Finset.range m) fun k =>
        inner3 S.pnz S.n S.n (part_vol S k u) (adj_tomo S (part_proj S k p)) := by
  unfold inner3
  rw [hm]
  rw [sum_block_split m S.pnz]
  refine Finset.sum_congr rfl ?_
  intro k hk
  refine Finset.sum_congr rfl ?_
  intro r hr
  refine Finset.sum_congr rfl ?_
  intro x hx
  refine Finset.sum_congr rfl ?_
  intro y hy
  simp only [Finset.mem_range] at hk hr hx hy
  rw [adj_batch_block S m hm hp p k r x y hk hr hx hy]
  congr 1
  unfold part_vol
  rw [if_pos ⟨hr, hx, hy⟩]

/-- C8: if the per-partition transform pair is adjoint-consistent
(`<fwd_tomo(u), p> = <u, adj_tomo(p)>` for all partition-sized `u`, `p`),
then the batched pair is adjoint-consistent for every full-size volume and
projection array whose depth is an exact multiple of the partition size. -/
theorem c8_adjoint_consistency_batch (S : SolverTomo) (m : ℕ)
    (hm : S.nz = m * S.pnz) (hp : 0 < S.pnz)
    (hadj : ∀ up pp : Arr,
      inner3 S.ntheta S.pnz S.n (fwd_tomo S up) pp =
        inner3 S.pnz S.n S.n up (adj_tomo S pp))
    (u p : Arr) :
    inner3 S.ntheta S.nz S.n (fwd_tomo_batch S u) p =
      inner3 S.nz S.n S.n u (adj_tomo_batch S p) := by
  rw [fwd_batch_inner_decomp S m hm hp u p, adj_batch_inner_decomp S m hm hp u p]
  exact Finset.sum_congr rfl fun k _ => hadj _ _

theorem c8_adjoint_consistency_batch_witness :
    Sw.nz = 1 * Sw.pnz ∧ 0 < Sw.pnz ∧
      inner3 Sw.ntheta Sw.nz Sw.n (fwd_tomo_batch Sw uc2) pc2 =
        inner3 Sw.nz Sw.n Sw.n uc2 (adj_tomo_batch Sw pc2) :=
  ⟨rfl, by norm_num [Sw],
    c8_adjoint_consistency_batch Sw 1 rfl (by norm_num [Sw])
      (fun up pp => rfl) uc2 pc2⟩

theorem arr_shift_sub (a b d : QC) (c : ℚ) : a + c • b - d = a - d + c • b := by
  refine QC.ext ?_ ?_ <;> simp <;> ring

theorem minf_half_step (S : SolverTomo) (xi0 Ru Rd : Arr) (g : ℚ) :
    minf S xi0 (Ru + ((1 / 2 : ℚ) * g) • Rd) ≤
      (minf S xi0 (Ru + g • Rd) + minf S xi0 Ru) / 2 := by
  unfold minf normSqArr
  have hpoint : ∀ t p x : ℕ,
      QC.normSq ((Ru + ((1 / 2 : ℚ) * g) • Rd - xi0) t p x) ≤
        (QC.normSq ((Ru + g • Rd - xi0) t p x) + QC.normSq ((Ru - xi0) t p x)) / 2 := by
    intro t p x
    simp only [Pi.add_apply, Pi.sub_apply, Pi.smul_apply]
    rw [arr_shift_sub, arr_shift_sub]
    exact QC.normSq_half_step (Ru t p x - xi0 t p x) (Rd t p x) g
  calc
    (Finset.sum (Finset.range S.ntheta) fun t =>
        Finset.sum (Finset.range S.pnz) fun p =>
          Finset.sum (Finset.range S.n) fun x =>
            QC.normSq ((Ru + ((1 / 2 : ℚ) * g) • Rd - xi0) t p x)) ≤
        Finset.sum (Finset.range S.ntheta) fun t =>
          Finset.sum (Finset.range S.pnz) fun p =>
            Finset.sum (Finset.range S.n) fun x =>
              (QC.normSq ((Ru + g • Rd - xi0) t p x) +
                QC.normSq ((Ru - xi0) t p x)) / 2 := by
      refine Finset.sum_le_sum fun t _ => ?_
      refine Finset.sum_le_sum fun p _ => ?_
      refine Finset.sum_le_sum fun x _ => ?_
      exact hpoint t p x
    _ = (Finset.sum (Finset.range S.ntheta) fun t =>
          Finset.sum (Finset.range S.pnz) fun p =>
            Finset.sum (Finset.range S.n) fun x =>
              QC.normSq ((Ru + g • Rd - xi0) t p x) +
                QC.normSq ((Ru - xi0) t p x)) / 2 := by
      rw [Finset.sum_div]
      refine Finset.sum_congr rfl fun t _ => ?_
      rw [Finset.sum_div]
      refine Finset.sum_congr rfl fun p _ => ?_
      rw [Finset.sum_div]
    _ = (Finset.sum (Finset.range S.ntheta) fun t =>
          Finset.sum (Finset.range S.pnz) fun p =>
            Finset.sum (Finset.range S.n) fun x =>
              QC.normSq ((Ru + g • Rd - xi0) t p x)) / 2 +
        (Finset.sum (Finset.range S.ntheta) fun t =>
          Finset.sum (Finset.range S.pnz) fun p =>
            Finset.sum (Finset.range S.n) fun x =>
              QC.normSq ((Ru - xi0) t p x)) / 2 := by
      rw [← add_div]
      congr 1
      rw [← Finset.sum_add_distrib]
      refine Finset.sum_congr rfl fun t _ => ?_
      rw [← Finset.sum_add_distrib]
      refine Finset.sum_congr rfl fun p _ => ?_
      rw [← Finset.sum_add_distrib]
    _ = (Finset.sum (Finset.range S.ntheta) fun t =>
          Finset.sum (Finset.range S.pnz) fun p =>
            Finset.sum (Finset.range S.n) fun x =>
              QC.normSq ((Ru + g • Rd - xi0) t p x)) / 2 +
        (Finset.sum (Finset.range S.ntheta) fun t =>
          Finset.sum (Finset.range S.pnz) fun p =>
            Finset.sum (Finset.range S.n) fun x =>
              QC.normSq ((Ru - xi0) t p x)) / 2 := rfl
    _ = ((Finset.sum (Finset.range S.ntheta) fun t =>
          Finset.sum (Finset.range S.pnz) fun p =>
            Finset.sum (Finset.range S.n) fun x =>
              QC.normSq ((Ru + g • Rd - xi0) t p x)) +
        (Finset.sum (Finset.range S.ntheta) fun t =>
          Finset.sum (Finset.range S.pnz) fun p =>
            Finset.sum (Finset.range S.n) fun x =>
              QC.normSq ((Ru - xi0) t p x))) / 2 := by
      rw [add_div]

theorem cg_iter_obj_nonincrease (S : SolverTomo) (xi0 : Arr) (fuel i : ℕ)
    (s s' : CGst)
    (hadd : ∀ a b : Arr, fwd_tomo S (a + b) = fwd_tomo S a + fwd_tomo S b)
    (hsmul : ∀ (c : ℚ) (a : Arr), fwd_tomo S (c • a) = c • fwd_tomo S a)
    (h : cg_iter S xi0 fuel i s = some s') :
    minf S xi0 (fwd_tomo S s'.u) ≤ minf S xi0 (fwd_tomo S s.u) := by
  simp only [cg_iter] at h
  set dex :=
    (if i = 0 then -grad_of S xi0 s.u
     else
       -grad_of S xi0 s.u +
         (QC.div (QC.ofRat (normSqArr S.pnz S.n S.n (grad_of S xi0 s.u)))
             (inner3 S.pnz S.n S.n s.d (grad_of S xi0 s.u - s.grad0) +
               QC.ofRat eps)) • s.d) with hd
  rcases hls : line_search fuel (minf S xi0) 1 (fwd_tomo S s.u) (fwd_tomo S dex)
    with _ | g
  · rw [hls] at h
    simp at h
  · rw [hls] at h
    replace h : (some (⟨s.u + ((1 / 2 : ℚ) * g) • dex, dex, grad_of S xi0 s.u⟩ : CGst) :
        Option CGst) = some s' := h
    obtain rfl :
        (⟨s.u + ((1 / 2 : ℚ) * g) • dex, dex, grad_of S xi0 s.u⟩ : CGst) = s' :=
      Option.some.inj h
    show minf S xi0 (fwd_tomo S (s.u + ((1 / 2 : ℚ) * g) • dex)) ≤
      minf S xi0 (fwd_tomo S s.u)
    rw [hadd, hsmul]
    have hprop := line_search_some_nonneg fuel (minf S xi0) 1 (fwd_tomo S s.u)
      (fwd_tomo S dex) g hls
    have hconv := minf_half_step S xi0 (fwd_tomo S s.u) (fwd_tomo S dex) g
    linarith

/-- C7: in every successful run of `cg_tomo` (each line search terminating
within the fuel), if the forward transform is linear then the objective
`norm(fwd_tomo(u_i) - xi0)^2` is non-increasing across iterations: the state
after iteration `i` has an objective no larger than the state before it. -/
theorem c7_objective_nonincreasing (S : SolverTomo) (xi0 : Arr) (fuel i : ℕ)
    (u0 : Arr)
    (hadd : ∀ a b : Arr, fwd_tomo S (a + b) = fwd_tomo S a + fwd_tomo S b)
    (hsmul : ∀ (c : ℚ) (a : Arr), fwd_tomo S (c • a) = c • fwd_tomo S a)
    (h : (cg_run S xi0 fuel (i + 1) ⟨u0, 0, 0⟩).isSome = true) :
    ∃ s s', cg_run S xi0 fuel i ⟨u0, 0, 0⟩ = some s ∧
      cg_run S xi0 fuel (i + 1) ⟨u0, 0, 0⟩ = some s' ∧
      minf S xi0 (fwd_tomo S s'.u) ≤ minf S xi0 (fwd_tomo S s.u) := by
  rcases hrun : cg_run S xi0 fuel i ⟨u0, 0, 0⟩ with _ | s
  · rw [cg_run_succ, hrun] at h
    simp at h
  · rw [cg_run_succ, hrun] at h
    simp only [Option.some_bind] at h
    rcases hit : cg_iter S xi0 fuel i s with _ | s'
    · rw [hit] at h
      simp at h
    · refine ⟨s, s', rfl, ?_, cg_iter_obj_nonincrease S xi0 fuel i s s' hadd hsmul hit⟩
      rw [cg_run_succ, hrun]
      simp only [Option.some_bind]
      exact hit

theorem c7_objective_nonincreasing_witness :
    (cg_run Sw xiW 5 (0 + 1) ⟨u0W, 0, 0⟩).isSome = true ∧
      ∃ s s', cg_run Sw xiW 5 0 ⟨u0W, 0, 0⟩ = some s ∧
        cg_run Sw xiW 5 (0 + 1) ⟨u0W, 0, 0⟩ = some s' ∧
        minf Sw xiW (fwd_tomo Sw s'.u) ≤ minf Sw xiW (fwd_tomo Sw s.u) := by
  have hls : line_search 5 (minf Sw xiW) 1 (fwd_tomo Sw u0W)
      (fwd_tomo Sw (-grad_of Sw xiW u0W)) = some 1 := by
    rw [line_search.eq_def]
    show (if minf Sw xiW (fwd_tomo Sw u0W) -
        minf Sw xiW (fwd_tomo Sw u0W + (1 : ℚ) • fwd_tomo Sw (-grad_of Sw xiW u0W)) < 0 then
        match 5 with
        | 0 => none
        | f + 1 =>
          line_search f (minf Sw xiW) (1 * (1 / 2)) (fwd_tomo Sw u0W)
            (fwd_tomo Sw (-grad_of Sw xiW u0W))
      else some 1) = some 1
    rw [if_neg]
    norm_num [minf, normSqArr, fwd_tomo, adj_tomo, Sw, xiW, u0W, grad_of,
      QC.div, QC.normSq, QC.ofRat, Finset.sum_range_one]
  have h : (cg_run Sw xiW 5 (0 + 1) ⟨u0W, 0, 0⟩).isSome = true := by
    rw [cg_run_succ, cg_run_zero]
    simp only [Option.some_bind]
    simp only [cg_iter, eq_self_iff_true, if_true]
    rw [hls]
    rfl
  exact ⟨h, c7_objective_nonincreasing Sw xiW 5 0 u0W (fun a b => rfl)
    (fun c a => rfl) h⟩
